import Mathlib

/-!
Verification of the env-file resolution and merge engine of `envdo`
(package `env`: `loadEnvFile`, `Env.getSearchDirectories`, `Env.LoadEnvFiles`).

The Go code is shallowly embedded: Go strings are Lean `String`
(`List Char` underneath; the Go code indexes bytes, but the only bytes it
ever compares are the ASCII quote characters, which in valid UTF-8 occur
exactly as the corresponding one-byte characters, so char-level slicing is
extensionally the same), Go maps are `String → Option String`, and the
filesystem is an explicit function from paths to file states.
-/

namespace Envdo

/-- The double-quote character compared by `loadEnvFile`. -/
def dq : Char := '"'

/-- The single-quote character compared by `loadEnvFile`. -/
def sq : Char := Char.ofNat 39

/-- Characters Go's `unicode.IsSpace` reports as white space; this is what
`strings.TrimSpace` trims. -/
def isGoSpace (c : Char) : Bool :=
  c == ' ' || c == '\t' || c == '\n' || c.toNat == 11 || c.toNat == 12 || c == '\r' ||
    c.toNat == 0x85 || c.toNat == 0xA0 || c.toNat == 0x1680 ||
    (0x2000 ≤ c.toNat && c.toNat ≤ 0x200A) || c.toNat == 0x2028 || c.toNat == 0x2029 ||
    c.toNat == 0x202F || c.toNat == 0x205F || c.toNat == 0x3000

/-- `strings.TrimSpace` on the character list: drop white space from both ends. -/
def trimChars (l : List Char) : List Char :=
  (l.dropWhile isGoSpace).rdropWhile isGoSpace

/-- Go `strings.TrimSpace`. -/
def trimSpace (s : String) : String := ⟨trimChars s.data⟩

/-- Go `strings.SplitN(line, "=", 2)`: `none` when the line has no `=`
(`len(parts) != 2`), otherwise the pieces before and after the first `=`. -/
def splitFirstEq : List Char → Option (List Char × List Char)
  | [] => none
  | c :: cs =>
    if c = '=' then some ([], cs)
    else
      match splitFirstEq cs with
      | none => none
      | some (k, v) => some (c :: k, v)

/-- The quote-stripping step of `loadEnvFile`: when the trimmed value has
length at least 2 and its first and last characters are both `"` or both
`'`, `value[1 : len(value)-1]` is taken; otherwise the value is unchanged. -/
def stripQuotesChars (l : List Char) : List Char :=
  if 2 ≤ l.length ∧
      ((l.head? = some dq ∧ l.getLast? = some dq) ∨
        (l.head? = some sq ∧ l.getLast? = some sq)) then
    (l.drop 1).dropLast
  else l

/-- Quote stripping on strings. -/
def stripQuotes (s : String) : String := ⟨stripQuotesChars s.data⟩

/-- The per-line logic of `loadEnvFile`'s scan loop: trim the line, skip it
when empty or when it begins with `#` (`strings.HasPrefix(line, "#")`),
split at the first `=` (skip when there is none), then trim the key and the
value and strip quotes from the value. -/
def parseEnvLine (raw : String) : Option (String × String) :=
  let line := trimChars raw.data
  if line = [] then none
  else if line.head? = some '#' then none
  else
    match splitFirstEq line with
    | none => none
    | some (k, v) => some (⟨trimChars k⟩, ⟨stripQuotesChars (trimChars v)⟩)

/-- `bufio.ScanLines`' `dropCR`: drop one trailing carriage return. -/
def dropCR (l : List Char) : List Char :=
  if l.getLast? = some '\r' then l.dropLast else l

/-- The sequence of lines `bufio.Scanner` with `ScanLines` yields: split at
newlines, do not yield a final empty token after a trailing newline, and
strip one `\r` before each newline (and at end of input). -/
def goLines (s : String) : List String :=
  let ps := s.data.splitOn '\n'
  let ps := if ps.getLast? = some [] then ps.dropLast else ps
  ps.map (fun l => (⟨dropCR l⟩ : String))

/-- Go `map[string]string`, abstracted by lookup. -/
def EnvMap := String → Option String

/-- The freshly made empty map `make(map[string]string)`. -/
def emptyEnv : EnvMap := fun _ => none

/-- `envs[key] = value`. -/
def setEnv (m : EnvMap) (k v : String) : EnvMap :=
  fun x => if x = k then some v else m x

/-- One iteration of `loadEnvFile`'s scan loop on the accumulating map. -/
def applyLine (m : EnvMap) (line : String) : EnvMap :=
  match parseEnvLine line with
  | none => m
  | some (k, v) => setEnv m k v

/-- The whole scan loop of `loadEnvFile` over a file's contents. -/
def loadEnvContent (m : EnvMap) (text : String) : EnvMap :=
  (goLines text).foldl applyLine m

/-- The mapping a single file's contents parse to (from an empty map). -/
def fileMap (text : String) : EnvMap := loadEnvContent emptyEnv text

/-- The element-processing loop of Go `path.Clean` (Unix separator), phrased
over a stack of already-emitted path elements (held in reverse): empty and
`.` elements are dropped, `..` pops a poppable element (or is dropped at the
root, or kept when nothing can be popped on a relative path), anything else
is pushed. -/
def cleanStack (rooted : Bool) : List (List Char) → List (List Char) → List (List Char)
  | stack, [] => stack
  | stack, c :: cs =>
    if c = [] ∨ c = ['.'] then cleanStack rooted stack cs
    else if c = ['.', '.'] then
      match stack with
      | top :: rest =>
        if top = ['.', '.'] then cleanStack rooted (c :: top :: rest) cs
        else cleanStack rooted rest cs
      | [] => if rooted then cleanStack rooted [] cs else cleanStack rooted [c] cs
    else cleanStack rooted (c :: stack) cs

/-- Go `path/filepath.Clean` for Unix paths: shortest lexically equivalent
path (collapse separators, drop `.`, resolve `..`, `"."` for the empty
result). -/
def clean (path : String) : String :=
  if path.data = [] then "."
  else
    let rooted : Bool := path.data.head? == some '/'
    let comps := path.data.splitOn '/'
    let stack := (cleanStack rooted [] comps).reverse
    let body := List.intercalate ['/'] stack
    if rooted then ⟨'/' :: body⟩
    else if stack = [] then "." else ⟨body⟩

/-- Go `filepath.Join` restricted to two elements, as `LoadEnvFiles` and
`getSearchDirectories` call it: skip leading empty elements, join with `/`,
then `Clean`. -/
def joinPath (a b : String) : String :=
  if a = "" then (if b = "" then "" else clean b) else clean (a ++ "/" ++ b)

/-- What the code observes about one path of the filesystem:
`absent` — `os.Stat` fails (the code then skips the path);
`denied` — `os.Stat` succeeds but opening/reading fails with an error `msg`
that is not "file does not exist";
`content` — the file is read in full with the given contents. -/
inductive FileState where
  | absent : FileState
  | denied (msg : String) : FileState
  | content (text : String) : FileState
deriving DecidableEq

/-- A filesystem: what each path holds. -/
def FileSys := String → FileState

/-- `loadEnvFile` on an opened path: a not-found error is silently no-op,
any other open/read error propagates, otherwise the scan loop merges the
file's lines into `envs`. -/
def loadEnvFile (st : FileState) (envs : EnvMap) : Except String EnvMap :=
  match st with
  | .absent => .ok envs
  | .denied msg => .error msg
  | .content text => .ok (loadEnvContent envs text)

/-- The filename `LoadEnvFiles` looks for: `".env"`, or `".env." + profile`
when a profile is given. -/
def envFilename (profile : String) : String :=
  if profile ≠ "" then ".env." ++ profile else ".env"

/-- `Env.getSearchDirectories`: `[pwd]` when non-empty, then
`filepath.Join(configDir, "envdo")` when `configDir` is non-empty. -/
def getSearchDirectories (pwd configDir : String) : List String :=
  (if pwd ≠ "" then [pwd] else []) ++
    (if configDir ≠ "" then [joinPath configDir "envdo"] else [])

/-- The directory loop of `Env.LoadEnvFiles`, already given the directories
in iteration order (original index `len(dirs)-1` down to `0`): stat each
`filepath.Join(dir, filename)`, skip on stat failure, otherwise run
`loadEnvFile`, wrapping its error as `failed to load <path>: <err>` and
aborting. -/
def loadLoop (fs : FileSys) (filename : String) : List String → EnvMap → Except String EnvMap
  | [], envs => .ok envs
  | dir :: rest, envs =>
    let envPath := joinPath dir filename
    match fs envPath with
    | .absent => loadLoop fs filename rest envs
    | st =>
      match loadEnvFile st envs with
      | .error e => .error ("failed to load " ++ envPath ++ ": " ++ e)
      | .ok m => loadLoop fs filename rest m

/-- `Env.LoadEnvFiles`: pick the filename from the profile, build the search
directories, and load them in reverse order (lower priority first) into an
initially empty map. -/
def LoadEnvFiles (fs : FileSys) (pwd configDir profile : String) : Except String EnvMap :=
  let filename := envFilename profile
  let dirs := getSearchDirectories pwd configDir
  loadLoop fs filename dirs.reverse emptyEnv

/-! ### Lookup lemmas for the merge -/

/-- First-defined-wins combination of two optional values. -/
def orDefault (a b : Option String) : Option String :=
  match a with
  | some v => some v
  | none => b

theorem orDefault_assoc (a b c : Option String) :
    orDefault (orDefault a b) c = orDefault a (orDefault b c) := by
  cases a <;> rfl

theorem orDefault_eq_some_iff (a b : Option String) :
    (∃ v, orDefault a b = some v) ↔ (∃ v, a = some v) ∨ (∃ v, b = some v) := by
  cases a <;> simp [orDefault]

theorem applyLine_lookup (m : EnvMap) (l : String) (k : String) :
    applyLine m l k = orDefault (applyLine emptyEnv l k) (m k) := by
  cases h : parseEnvLine l with
  | none => simp [applyLine, h, orDefault, emptyEnv]
  | some kv =>
    obtain ⟨k0, v0⟩ := kv
    simp only [applyLine, h, setEnv, emptyEnv]
    by_cases hk : k = k0 <;> simp [hk, orDefault]

theorem foldl_applyLine_lookup (ls : List String) :
    ∀ (m : EnvMap) (k : String),
      (ls.foldl applyLine m) k = orDefault ((ls.foldl applyLine emptyEnv) k) (m k) := by
  induction ls with
  | nil => intro m k; rfl
  | cons l ls ih =>
    intro m k
    simp only [List.foldl_cons]
    rw [ih (applyLine m l), ih (applyLine emptyEnv l), orDefault_assoc, applyLine_lookup m l k]

/-- Looking a key up after merging one file: the file's own entry if it has
one, the previous map's entry otherwise. -/
theorem loadEnvContent_lookup (m : EnvMap) (t : String) (k : String) :
    loadEnvContent m t k = orDefault (fileMap t k) (m k) :=
  foldl_applyLine_lookup (goLines t) m k

/-! ### Lemmas about the directory loop -/

theorem loadLoop_append (fs : FileSys) (fn : String) (ds₁ ds₂ : List String) :
    ∀ envs, loadLoop fs fn (ds₁ ++ ds₂) envs =
      match loadLoop fs fn ds₁ envs with
      | .error e => .error e
      | .ok m => loadLoop fs fn ds₂ m := by
  induction ds₁ with
  | nil => intro envs; rfl
  | cons d ds ih =>
    intro envs
    simp only [List.cons_append, loadLoop]
    cases hfs : fs (joinPath d fn) with
    | absent => exact ih envs
    | denied msg => rfl
    | content t => simp only [loadEnvFile]; exact ih (loadEnvContent envs t)

theorem loadLoop_all_absent (fs : FileSys) (fn : String) (ds : List String)
    (h : ∀ d ∈ ds, fs (joinPath d fn) = .absent) :
    ∀ envs, loadLoop fs fn ds envs = .ok envs := by
  induction ds with
  | nil => intro envs; rfl
  | cons d ds ih =>
    intro envs
    have hd : fs (joinPath d fn) = .absent := h d (by simp)
    simp only [loadLoop, hd]
    exact ih (fun d' hd' => h d' (by simp [hd'])) envs

theorem loadLoop_congr (fs fs' : FileSys) (fn : String) (ds : List String)
    (h : ∀ d ∈ ds, fs (joinPath d fn) = fs' (joinPath d fn)) :
    ∀ envs, loadLoop fs fn ds envs = loadLoop fs' fn ds envs := by
  induction ds with
  | nil => intro envs; rfl
  | cons d ds ih =>
    intro envs
    have hd := h d (by simp)
    have hrest : ∀ d' ∈ ds, fs (joinPath d' fn) = fs' (joinPath d' fn) :=
      fun d' hd' => h d' (by simp [hd'])
    simp only [loadLoop, hd]
    cases fs' (joinPath d fn) with
    | absent => exact ih hrest envs
    | denied msg => rfl
    | content t => simp only [loadEnvFile]; exact ih hrest (loadEnvContent envs t)

theorem loadLoop_denied (fs : FileSys) (fn : String) (ds : List String)
    (h : ∃ d ∈ ds, ∃ msg, fs (joinPath d fn) = .denied msg) :
    ∀ envs, ∃ d ∈ ds, ∃ msg, fs (joinPath d fn) = .denied msg ∧
      loadLoop fs fn ds envs = .error ("failed to load " ++ joinPath d fn ++ ": " ++ msg) := by
  induction ds with
  | nil => simp at h
  | cons d ds ih =>
    intro envs
    cases hfs : fs (joinPath d fn) with
    | denied msg =>
      exact ⟨d, by simp, msg, hfs, by simp [loadLoop, hfs, loadEnvFile]⟩
    | absent =>
      have h' : ∃ d' ∈ ds, ∃ msg, fs (joinPath d' fn) = .denied msg := by
        obtain ⟨d', hd', msg, hm⟩ := h
        rcases List.mem_cons.mp hd' with rfl | hmem
        · rw [hfs] at hm; cases hm
        · exact ⟨d', hmem, msg, hm⟩
      obtain ⟨d', hd', msg', hm', heq⟩ := ih h' envs
      exact ⟨d', by simp [hd'], msg', hm', by simp only [loadLoop, hfs]; exact heq⟩
    | content t =>
      have h' : ∃ d' ∈ ds, ∃ msg, fs (joinPath d' fn) = .denied msg := by
        obtain ⟨d', hd', msg, hm⟩ := h
        rcases List.mem_cons.mp hd' with rfl | hmem
        · rw [hfs] at hm; cases hm
        · exact ⟨d', hmem, msg, hm⟩
      obtain ⟨d', hd', msg', hm', heq⟩ := ih h' (loadEnvContent envs t)
      refine ⟨d', by simp [hd'], msg', hm', ?_⟩
      simp only [loadLoop, hfs, loadEnvFile]
      exact heq

theorem loadLoop_ok_keys (fs : FileSys) (fn : String) (ds : List String) :
    ∀ (envs m : EnvMap), loadLoop fs fn ds envs = .ok m →
      ∀ k, (∃ v, m k = some v) ↔
        ((∃ v, envs k = some v) ∨
          ∃ d ∈ ds, ∃ t, fs (joinPath d fn) = .content t ∧ ∃ v, fileMap t k = some v) := by
  induction ds with
  | nil =>
    intro envs m hm k
    cases hm
    simp
  | cons d ds ih =>
    intro envs m hm k
    cases hfs : fs (joinPath d fn) with
    | absent =>
      simp only [loadLoop, hfs] at hm
      rw [ih envs m hm k, List.exists_mem_cons_iff]
      simp [hfs]
    | denied msg =>
      simp [loadLoop, hfs, loadEnvFile] at hm
    | content t0 =>
      simp only [loadLoop, hfs, loadEnvFile] at hm
      rw [ih (loadEnvContent envs t0) m hm k, List.exists_mem_cons_iff]
      have hlk : ∀ v, (loadEnvContent envs t0 k = some v) ↔
          (orDefault (fileMap t0 k) (envs k) = some v) := by
        intro v; rw [loadEnvContent_lookup]
      have : (∃ v, loadEnvContent envs t0 k = some v) ↔
          (∃ v, fileMap t0 k = some v) ∨ (∃ v, envs k = some v) := by
        simp only [hlk]
        exact orDefault_eq_some_iff _ _
      rw [this]
      simp only [hfs, FileState.content.injEq]
      constructor
      · rintro (⟨hf | he⟩ | hds)
        · exact Or.inr (Or.inl ⟨t0, rfl, hf⟩)
        · exact Or.inl he
        · exact Or.inr (Or.inr hds)
      · rintro (he | ⟨t, rfl, hf⟩ | hds)
        · exact Or.inl (Or.inr he)
        · exact Or.inl (Or.inl hf)
        · exact Or.inr hds

/-! ### Helper lemmas on `dropWhile`/`rdropWhile` and trimming -/

theorem dropWhile_concat {α : Type} [DecidableEq α] (p : α → Bool) (l : List α) (x : α) :
    List.dropWhile p (l ++ [x]) =
      if List.dropWhile p l = [] then List.dropWhile p [x] else List.dropWhile p l ++ [x] := by
  induction l with
  | nil => simp
  | cons c l ih =>
    by_cases hc : p c
    · simpa [List.dropWhile_cons, hc] using ih
    · simp [List.dropWhile_cons, hc]

theorem dropWhile_rdropWhile_comm {α : Type} [DecidableEq α] (p : α → Bool) (l : List α) :
    List.dropWhile p (List.rdropWhile p l) = List.rdropWhile p (List.dropWhile p l) := by
  induction l using List.reverseRecOn with
  | nil => simp
  | append_singleton l x ih =>
    by_cases hx : p x
    · rw [List.rdropWhile_concat_pos p l x hx, ih, dropWhile_concat]
      by_cases hnil : List.dropWhile p l = []
      · simp [hnil, hx]
      · rw [if_neg hnil, List.rdropWhile_concat_pos p _ x hx]
    · rw [List.rdropWhile_concat_neg p l x hx, dropWhile_concat]
      by_cases hnil : List.dropWhile p l = []
      · simp [hnil, hx, List.rdropWhile_singleton, List.dropWhile_cons]
      · rw [if_neg hnil, List.rdropWhile_concat_neg p _ x hx]

theorem rdropWhile_cons_neg {α : Type} (p : α → Bool) (c : α) (l : List α) (hc : ¬p c) :
    List.rdropWhile p (c :: l) = c :: List.rdropWhile p l := by
  induction l using List.reverseRecOn with
  | nil => simp [List.rdropWhile_singleton, hc]
  | append_singleton l x ih =>
    by_cases hx : p x
    · rw [show c :: (l ++ [x]) = (c :: l) ++ [x] from rfl,
        List.rdropWhile_concat_pos p _ x hx, ih, List.rdropWhile_concat_pos p l x hx]
    · rw [show c :: (l ++ [x]) = (c :: l) ++ [x] from rfl,
        List.rdropWhile_concat_neg p _ x hx, List.rdropWhile_concat_neg p l x hx]
      exact List.cons_append c l [x]

theorem trimChars_rdropWhile (l : List Char) :
    trimChars (List.rdropWhile isGoSpace l) = trimChars l := by
  unfold trimChars
  rw [dropWhile_rdropWhile_comm, ← dropWhile_rdropWhile_comm, dropWhile_rdropWhile_comm,
    List.rdropWhile_idempotent]

theorem mem_dropWhile_of_neg {α : Type} (p : α → Bool) (l : List α) (x : α)
    (hx : ¬p x) (hmem : x ∈ l) : x ∈ List.dropWhile p l := by
  induction l with
  | nil => cases hmem
  | cons c l ih =>
    by_cases hc : p c
    · rw [List.dropWhile_cons, if_pos hc]
      rcases List.mem_cons.mp hmem with rfl | h
      · exact absurd hc hx
      · exact ih h
    · rw [List.dropWhile_cons, if_neg hc]
      exact hmem

theorem mem_trimChars_iff (l : List Char) (x : Char) (hx : ¬isGoSpace x) :
    x ∈ trimChars l ↔ x ∈ l := by
  constructor
  · intro h
    exact (List.dropWhile_suffix isGoSpace).subset
      ((List.rdropWhile_prefix isGoSpace (List.dropWhile isGoSpace l)).subset h)
  · intro h
    unfold trimChars
    rw [List.rdropWhile]
    refine List.mem_reverse.mpr ?_
    exact mem_dropWhile_of_neg _ _ _ hx (List.mem_reverse.mpr (mem_dropWhile_of_neg _ _ _ hx h))

/-! ### Helper lemmas on `splitFirstEq` -/

theorem splitFirstEq_eq_none_iff (l : List Char) :
    splitFirstEq l = none ↔ '=' ∉ l := by
  induction l with
  | nil => simp [splitFirstEq]
  | cons c cs ih =>
    by_cases hc : c = '='
    · subst hc; simp [splitFirstEq]
    · rw [splitFirstEq, if_neg hc, List.mem_cons, not_or]
      cases h : splitFirstEq cs with
      | none =>
        have hmem : '=' ∉ cs := ih.mp h
        constructor
        · intro _; exact ⟨fun he => hc he.symm, hmem⟩
        · intro _; rfl
      | some kv =>
        constructor
        · intro hcontra; cases hcontra
        · rintro ⟨_, h2⟩
          exact absurd (h.symm.trans (ih.mpr h2)) (by simp)

theorem splitFirstEq_sound (l : List Char) :
    ∀ k v, splitFirstEq l = some (k, v) → l = k ++ '=' :: v ∧ '=' ∉ k := by
  induction l with
  | nil => intro k v h; cases h
  | cons c cs ih =>
    intro k v h
    by_cases hc : c = '='
    · subst hc
      rw [splitFirstEq, if_pos rfl] at h
      injection h with h'
      obtain ⟨hk, hv⟩ := Prod.mk.injEq .. ▸ h'
      subst hk; subst hv
      simp
    · rw [splitFirstEq, if_neg hc] at h
      cases hrec : splitFirstEq cs with
      | none => rw [hrec] at h; cases h
      | some kv =>
        obtain ⟨k0, v0⟩ := kv
        rw [hrec] at h
        injection h with h'
        obtain ⟨hk, hv⟩ := Prod.mk.injEq .. ▸ h'
        subst hk; subst hv
        obtain ⟨heq, hmem⟩ := ih k0 v0 hrec
        constructor
        · rw [List.cons_append, heq]
        · intro hin
          rcases List.mem_cons.mp hin with h1 | h2
          · exact hc h1.symm
          · exact hmem h2

/-! ### The two merge strategies (for the refinement claim) -/

/-- The strategy `LoadEnvFiles` implements, abstracted over a priority-ordered
list of file contents (highest priority first): iterate in reverse order and
let each later (higher-priority) file overwrite existing keys. -/
def mergeOverwriteReversed (contents : List String) : EnvMap :=
  contents.reverse.foldl loadEnvContent emptyEnv

/-- The strategy the spec demands equivalence with: apply the files in
priority order (highest first) and make each later (lower-priority) layer
yield to already-set keys. -/
def mergeYieldInOrder (contents : List String) : EnvMap :=
  contents.foldl (fun m t => fun k => orDefault (m k) (fileMap t k)) emptyEnv

/-- The first file in the priority-ordered list defining a key. -/
def firstDef : List String → String → Option String
  | [], _ => none
  | t :: ts, k => orDefault (fileMap t k) (firstDef ts k)

theorem orDefault_none_right (a : Option String) : orDefault a none = a := by
  cases a <;> rfl

theorem mergeOverwriteReversed_lookup (ts : List String) (k : String) :
    mergeOverwriteReversed ts k = firstDef ts k := by
  induction ts with
  | nil => rfl
  | cons t ts ih =>
    show (List.foldl loadEnvContent emptyEnv (t :: ts).reverse) k = _
    rw [List.reverse_cons, List.foldl_append]
    show loadEnvContent (mergeOverwriteReversed ts) t k = _
    rw [loadEnvContent_lookup, ih]
    rfl

theorem mergeYieldInOrder_lookup (ts : List String) :
    ∀ (m : EnvMap) (k : String),
      (ts.foldl (fun m t => fun k => orDefault (m k) (fileMap t k)) m) k =
        orDefault (m k) (firstDef ts k) := by
  induction ts with
  | nil => intro m k; exact (orDefault_none_right (m k)).symm
  | cons t ts ih =>
    intro m k
    simp only [List.foldl_cons]
    rw [ih]
    show orDefault (orDefault (m k) (fileMap t k)) (firstDef ts k) = _
    rw [orDefault_assoc]
    rfl

/-! ### Last occurrence wins inside one file -/

/-- The (key, value) entries a list of lines contributes, in file order. -/
def entriesOf (ls : List String) : List (String × String) :=
  ls.filterMap parseEnvLine

/-- The value of the last entry for a key. -/
def lookupLast (es : List (String × String)) (k : String) : Option String :=
  (es.reverse.find? (fun e => e.1 == k)).map Prod.snd

theorem find?_append {α : Type} (p : α → Bool) (l₁ l₂ : List α) :
    List.find? p (l₁ ++ l₂) =
      match List.find? p l₁ with
      | some x => some x
      | none => List.find? p l₂ := by
  induction l₁ with
  | nil => rfl
  | cons a l ih =>
    by_cases ha : p a
    · simp [List.find?_cons, ha]
    · have ha' : p a = false := by simpa using ha
      simp only [List.cons_append, List.find?_cons, ha']
      exact ih

theorem foldl_applyLine_lastwins (ls : List String) :
    ∀ (m : EnvMap) (k : String),
      (ls.foldl applyLine m) k = orDefault (lookupLast (entriesOf ls) k) (m k) := by
  induction ls with
  | nil => intro m k; rfl
  | cons l ls ih =>
    intro m k
    simp only [List.foldl_cons]
    rw [ih]
    cases hp : parseEnvLine l with
    | none =>
      have hd : applyLine m l = m := by simp [applyLine, hp]
      have he : entriesOf (l :: ls) = entriesOf ls := by simp [entriesOf, hp]
      rw [hd, he]
    | some kv =>
      obtain ⟨k0, v0⟩ := kv
      have he : entriesOf (l :: ls) = (k0, v0) :: entriesOf ls := by
        simp [entriesOf, hp]
      rw [he]
      unfold lookupLast
      rw [List.reverse_cons, find?_append]
      cases hf : List.find? (fun e => e.1 == k) (entriesOf ls).reverse with
      | some e => simp [orDefault]
      | none =>
        simp only [Option.map]
        have hstep : applyLine m l k = if k = k0 then some v0 else m k := by
          simp [applyLine, hp, setEnv]
        rw [hstep]
        by_cases hk : k = k0
        · subst hk; simp [List.find?_cons, orDefault]
        · have : ((k0, v0).1 == k) = false := by
            simp [hk, Ne.symm]
          simp [List.find?_cons, this, orDefault, hk]

/-- Inside one file, the map holds the value of the last occurrence of each
key. -/
theorem fileMap_lastwins (t : String) (k : String) :
    fileMap t k = lookupLast (entriesOf (goLines t)) k := by
  have := foldl_applyLine_lastwins (goLines t) emptyEnv k
  rw [show fileMap t k = (List.foldl applyLine emptyEnv (goLines t)) k from rfl, this]
  exact orDefault_none_right _

/-! ### Claim theorems -/

/-- C1: cross-directory precedence with additive merge. For every profile,
when both the working directory (higher priority) and the config `envdo`
directory (lower priority) hold an env file, `LoadEnvFiles` succeeds; any
key the higher-priority file defines gets that file's value, regardless of
line order, and any key defined only in the lower-priority file keeps the
lower-priority value. -/
theorem c1_cross_directory_precedence (fs : FileSys) (pwd cfg profile t1 t2 : String)
    (hpwd : pwd ≠ "") (hcfg : cfg ≠ "")
    (h1 : fs (joinPath pwd (envFilename profile)) = .content t1)
    (h2 : fs (joinPath (joinPath cfg "envdo") (envFilename profile)) = .content t2) :
    ∃ m, LoadEnvFiles fs pwd cfg profile = .ok m ∧
      (∀ k v1, fileMap t1 k = some v1 → m k = some v1) ∧
      (∀ k v2, fileMap t1 k = none → fileMap t2 k = some v2 → m k = some v2) := by
  have hdirs : getSearchDirectories pwd cfg = [pwd, joinPath cfg "envdo"] := by
    unfold getSearchDirectories
    rw [if_pos hpwd, if_pos hcfg]
    rfl
  refine ⟨loadEnvContent (loadEnvContent emptyEnv t2) t1, ?_, ?_, ?_⟩
  · show loadLoop fs (envFilename profile) (getSearchDirectories pwd cfg).reverse emptyEnv = _
    rw [hdirs]
    show loadLoop fs (envFilename profile) [joinPath cfg "envdo", pwd] emptyEnv = _
    simp only [loadLoop, h2, h1, loadEnvFile]
  · intro k v1 hv1
    rw [loadEnvContent_lookup, hv1]
    rfl
  · intro k v2 h1n h2s
    rw [loadEnvContent_lookup, h1n]
    exact h2s

/-- C2: a missing env file is skipped with resolution continuing (dropping
either directory's file from the filesystem is invisible); when every
candidate file is missing the result is `ok` with the empty mapping; and a
non-not-found read failure on any candidate file aborts the whole call with
an error naming the offending path — no mapping is returned. -/
theorem c2_error_semantics :
    (∀ (fs : FileSys) (pwd cfg profile : String), pwd ≠ "" →
      fs (joinPath pwd (envFilename profile)) = .absent →
      LoadEnvFiles fs pwd cfg profile = LoadEnvFiles fs "" cfg profile) ∧
    (∀ (fs : FileSys) (pwd cfg profile : String), cfg ≠ "" →
      fs (joinPath (joinPath cfg "envdo") (envFilename profile)) = .absent →
      LoadEnvFiles fs pwd cfg profile = LoadEnvFiles fs pwd "" profile) ∧
    (∀ (fs : FileSys) (pwd cfg profile : String),
      (∀ d ∈ getSearchDirectories pwd cfg, fs (joinPath d (envFilename profile)) = .absent) →
      LoadEnvFiles fs pwd cfg profile = .ok emptyEnv) ∧
    (∀ (fs : FileSys) (pwd cfg profile : String),
      (∃ d ∈ getSearchDirectories pwd cfg, ∃ msg,
        fs (joinPath d (envFilename profile)) = .denied msg) →
      ∃ d ∈ getSearchDirectories pwd cfg, ∃ msg,
        fs (joinPath d (envFilename profile)) = .denied msg ∧
        LoadEnvFiles fs pwd cfg profile =
          .error ("failed to load " ++ joinPath d (envFilename profile) ++ ": " ++ msg)) := by
  refine ⟨?_, ?_, ?_, ?_⟩
  · intro fs pwd cfg profile hpwd habs
    have hdirs : getSearchDirectories pwd cfg = [pwd] ++ getSearchDirectories "" cfg := by
      simp [getSearchDirectories, hpwd]
    show loadLoop fs (envFilename profile) (getSearchDirectories pwd cfg).reverse emptyEnv =
      loadLoop fs (envFilename profile) (getSearchDirectories "" cfg).reverse emptyEnv
    rw [hdirs, List.reverse_append, loadLoop_append]
    cases loadLoop fs (envFilename profile) (getSearchDirectories "" cfg).reverse emptyEnv with
    | error e => rfl
    | ok m =>
      show loadLoop fs (envFilename profile) [pwd] m = .ok m
      simp [loadLoop, habs]
  · intro fs pwd cfg profile hcfg habs
    have hdirs : getSearchDirectories pwd cfg =
        getSearchDirectories pwd "" ++ [joinPath cfg "envdo"] := by
      simp [getSearchDirectories, hcfg]
    show loadLoop fs (envFilename profile) (getSearchDirectories pwd cfg).reverse emptyEnv =
      loadLoop fs (envFilename profile) (getSearchDirectories pwd "").reverse emptyEnv
    rw [hdirs, List.reverse_append]
    show loadLoop fs (envFilename profile)
        (joinPath cfg "envdo" :: (getSearchDirectories pwd "").reverse) emptyEnv = _
    simp only [loadLoop, habs]
  · intro fs pwd cfg profile habs
    exact loadLoop_all_absent fs (envFilename profile) (getSearchDirectories pwd cfg).reverse
      (fun d hd => habs d (List.mem_reverse.mp hd)) emptyEnv
  · intro fs pwd cfg profile hden
    obtain ⟨d0, hd0, msg0, hm0⟩ := hden
    obtain ⟨d, hd, msg, hm, herr⟩ :=
      loadLoop_denied fs (envFilename profile) (getSearchDirectories pwd cfg).reverse
        ⟨d0, List.mem_reverse.mpr hd0, msg0, hm0⟩ emptyEnv
    exact ⟨d, List.mem_reverse.mp hd, msg, hm, herr⟩

/-- C3: merge-strategy equivalence. Iterating the priority-ordered file
contents in reverse and letting later (higher-priority) layers overwrite —
what `LoadEnvFiles` does — agrees at every key with iterating in priority
order and letting later (lower-priority) layers yield to already-set keys;
and `LoadEnvFiles` indeed computes the former on the files it finds. -/
theorem c3_merge_strategy_equivalence :
    (∀ (contents : List String) (k : String),
      mergeOverwriteReversed contents k = mergeYieldInOrder contents k) ∧
    (∀ (fs : FileSys) (pwd cfg profile t1 t2 : String), pwd ≠ "" → cfg ≠ "" →
      fs (joinPath pwd (envFilename profile)) = .content t1 →
      fs (joinPath (joinPath cfg "envdo") (envFilename profile)) = .content t2 →
      LoadEnvFiles fs pwd cfg profile = .ok (mergeOverwriteReversed [t1, t2])) := by
  constructor
  · intro contents k
    have h2 := mergeYieldInOrder_lookup contents emptyEnv k
    rw [mergeOverwriteReversed_lookup,
      show mergeYieldInOrder contents k = orDefault (emptyEnv k) (firstDef contents k) from h2]
    rfl
  · intro fs pwd cfg profile t1 t2 hpwd hcfg h1 h2
    have hdirs : getSearchDirectories pwd cfg = [pwd, joinPath cfg "envdo"] := by
      unfold getSearchDirectories
      rw [if_pos hpwd, if_pos hcfg]
      rfl
    show loadLoop fs (envFilename profile) (getSearchDirectories pwd cfg).reverse emptyEnv = _
    rw [hdirs]
    show loadLoop fs (envFilename profile) [joinPath cfg "envdo", pwd] emptyEnv = _
    simp only [loadLoop, h2, h1, loadEnvFile]
    rfl

/-- C9: profile filename selection. The filename looked up is `.env` for an
empty profile and `.env.` followed by the verbatim profile otherwise, and
`LoadEnvFiles` consults the filesystem only at `Join(dir, filename)` for the
search directories: two filesystems agreeing there are indistinguishable. -/
theorem c9_profile_filename_selection :
    (∀ profile : String,
      envFilename profile = if profile = "" then ".env" else ".env." ++ profile) ∧
    (∀ (fs fs' : FileSys) (pwd cfg profile : String),
      (∀ d ∈ getSearchDirectories pwd cfg,
        fs (joinPath d (envFilename profile)) = fs' (joinPath d (envFilename profile))) →
      LoadEnvFiles fs pwd cfg profile = LoadEnvFiles fs' pwd cfg profile) := by
  constructor
  · intro profile
    unfold envFilename
    by_cases h : profile = "" <;> simp [h]
  · intro fs fs' pwd cfg profile h
    exact loadLoop_congr fs fs' (envFilename profile) (getSearchDirectories pwd cfg).reverse
      (fun d hd => h d (List.mem_reverse.mp hd)) emptyEnv

/-- C10: merge monotonicity. Merging a file never deletes keys (a key
defined before the merge is still defined after), and a successful
`LoadEnvFiles` result defines exactly the keys appearing in some existing
env file of the search directories. -/
theorem c10_merge_monotonic_keys_union :
    (∀ (envs : EnvMap) (t k : String), loadEnvContent envs t k = none → envs k = none) ∧
    (∀ (fs : FileSys) (pwd cfg profile : String) (m : EnvMap),
      LoadEnvFiles fs pwd cfg profile = .ok m →
      ∀ k, (∃ v, m k = some v) ↔
        ∃ d ∈ getSearchDirectories pwd cfg, ∃ t,
          fs (joinPath d (envFilename profile)) = .content t ∧ ∃ v, fileMap t k = some v) := by
  constructor
  · intro envs t k h
    rw [loadEnvContent_lookup] at h
    revert h
    cases fileMap t k <;> simp [orDefault]
  · intro fs pwd cfg profile m hm k
    have := loadLoop_ok_keys fs (envFilename profile) (getSearchDirectories pwd cfg).reverse
      emptyEnv m hm k
    rw [this]
    constructor
    · rintro (⟨v, hv⟩ | ⟨d, hd, rest⟩)
      · cases hv
      · exact ⟨d, List.mem_reverse.mp hd, rest⟩
    · rintro ⟨d, hd, rest⟩
      exact Or.inr ⟨d, List.mem_reverse.mpr hd, rest⟩

theorem parseEnvLine_some_shape (line k v : String)
    (h : parseEnvLine line = some (k, v)) :
    ∃ kr vr, splitFirstEq (trimChars line.data) = some (kr, vr) ∧
      k = ⟨trimChars kr⟩ ∧ v = ⟨stripQuotesChars (trimChars vr)⟩ := by
  simp only [parseEnvLine] at h
  by_cases h1 : trimChars line.data = []
  · rw [if_pos h1] at h; cases h
  · rw [if_neg h1] at h
    by_cases h2 : (trimChars line.data).head? = some '#'
    · rw [if_pos h2] at h; cases h
    · rw [if_neg h2] at h
      cases hs : splitFirstEq (trimChars line.data) with
      | none => rw [hs] at h; cases h
      | some kv =>
        obtain ⟨kr, vr⟩ := kv
        rw [hs] at h
        injection h with h'
        exact ⟨kr, vr, rfl, (congrArg Prod.fst h').symm, (congrArg Prod.snd h').symm⟩

/-- C4: quote stripping. The trimmed value loses exactly one leading and one
trailing quote character precisely when it is at least two characters long
and its first and last characters are both `"` or both `'`; otherwise it is
kept verbatim; and the parser applies exactly this transformation (after
whitespace trimming) to the value part of every parsed line. -/
theorem c4_quote_stripping :
    (∀ v : List Char, 2 ≤ v.length →
      ((v.head? = some dq ∧ v.getLast? = some dq) ∨
        (v.head? = some sq ∧ v.getLast? = some sq)) →
      stripQuotesChars v = (v.drop 1).dropLast) ∧
    (∀ v : List Char, ¬(2 ≤ v.length ∧
      ((v.head? = some dq ∧ v.getLast? = some dq) ∨
        (v.head? = some sq ∧ v.getLast? = some sq))) →
      stripQuotesChars v = v) ∧
    (∀ (line k v : String), parseEnvLine line = some (k, v) →
      ∃ kr vr, splitFirstEq (trimChars line.data) = some (kr, vr) ∧
        k = ⟨trimChars kr⟩ ∧ v = ⟨stripQuotesChars (trimChars vr)⟩) := by
  refine ⟨?_, ?_, parseEnvLine_some_shape⟩
  · intro v h1 h2
    unfold stripQuotesChars
    rw [if_pos ⟨h1, h2⟩]
  · intro v h
    unfold stripQuotesChars
    rw [if_neg h]

/-- C5: line skipping. A line that trims to empty or to a `#`-comment parses
to nothing; a line with no `=` parses to nothing (silently, the parser has
no error outcome); every other line is split at its first `=` and parses to
exactly one (key, value) entry; and the scan loop records exactly that entry
(or nothing) for each line. -/
theorem c5_line_skipping :
    (∀ line : String, trimChars line.data = [] ∨ (trimChars line.data).head? = some '#' →
      parseEnvLine line = none) ∧
    (∀ line : String, '=' ∉ line.data → parseEnvLine line = none) ∧
    (∀ line : String, trimChars line.data ≠ [] → (trimChars line.data).head? ≠ some '#' →
      '=' ∈ line.data →
      ∃ kr vr, splitFirstEq (trimChars line.data) = some (kr, vr) ∧
        trimChars line.data = kr ++ '=' :: vr ∧ '=' ∉ kr ∧
        parseEnvLine line = some (⟨trimChars kr⟩, ⟨stripQuotesChars (trimChars vr)⟩)) ∧
    (∀ (m : EnvMap) (line k v : String), parseEnvLine line = some (k, v) →
      applyLine m line = setEnv m k v) ∧
    (∀ (m : EnvMap) (line : String), parseEnvLine line = none → applyLine m line = m) := by
  refine ⟨?_, ?_, ?_, ?_, ?_⟩
  · intro line h
    simp only [parseEnvLine]
    rcases h with h | h
    · rw [if_pos h]
    · by_cases h0 : trimChars line.data = []
      · rw [if_pos h0]
      · rw [if_neg h0, if_pos h]
  · intro line h
    have h' : '=' ∉ trimChars line.data :=
      fun hm => h ((mem_trimChars_iff line.data '=' (by decide)).mp hm)
    have hn : splitFirstEq (trimChars line.data) = none := (splitFirstEq_eq_none_iff _).mpr h'
    simp only [parseEnvLine]
    by_cases h0 : trimChars line.data = []
    · rw [if_pos h0]
    · rw [if_neg h0]
      by_cases h1 : (trimChars line.data).head? = some '#'
      · rw [if_pos h1]
      · rw [if_neg h1, hn]
  · intro line hne hhash hmem
    have hmem' : '=' ∈ trimChars line.data :=
      (mem_trimChars_iff line.data '=' (by decide)).mpr hmem
    cases hs : splitFirstEq (trimChars line.data) with
    | none => exact absurd hmem' ((splitFirstEq_eq_none_iff _).mp hs)
    | some kv =>
      obtain ⟨kr, vr⟩ := kv
      obtain ⟨heq, hnotin⟩ := splitFirstEq_sound _ kr vr hs
      refine ⟨kr, vr, rfl, heq, hnotin, ?_⟩
      simp only [parseEnvLine]
      rw [if_neg hne, if_neg hhash, hs]
  · intro m line k v h
    simp [applyLine, h]
  · intro m line h
    simp [applyLine, h]

/-- C6: empty-key quirk. A line of the shape `=VALUE` is accepted and yields
the entry with key `""` and the usual trimmed, quote-stripped value — it is
not rejected or skipped. -/
theorem c6_empty_key_quirk (val : String) :
    parseEnvLine ("=" ++ val) = some ("", stripQuotes (trimSpace val)) := by
  have hns : isGoSpace '=' = false := by decide
  have hline : trimChars (("=" ++ val).data) = '=' :: List.rdropWhile isGoSpace val.data := by
    show trimChars ('=' :: val.data) = _
    unfold trimChars
    rw [show List.dropWhile isGoSpace ('=' :: val.data) = '=' :: val.data by
      simp [List.dropWhile_cons, hns]]
    exact rdropWhile_cons_neg _ _ _ (by simp [hns])
  simp only [parseEnvLine, hline]
  rw [if_neg (by simp), if_neg (by simp only [List.head?_cons]; decide)]
  rw [splitFirstEq, if_pos rfl]
  show some ((⟨trimChars []⟩ : String),
      (⟨stripQuotesChars (trimChars (List.rdropWhile isGoSpace val.data))⟩ : String)) =
    some ("", stripQuotes (trimSpace val))
  rw [trimChars_rdropWhile]
  rfl

/-- C7: intra-file duplicates. The mapping a single file parses to holds,
for every key, the value of the last entry for that key in file order (later
occurrences overwrite earlier ones), checked also on a concrete duplicate. -/
theorem c7_intra_file_last_wins :
    (∀ t k : String, fileMap t k = lookupLast (entriesOf (goLines t)) k) ∧
    fileMap "A=1\nA=2" "A" = some "2" := by
  refine ⟨fileMap_lastwins, by decide⟩

/-- C8 counterexample: `getSearchDirectories` passes the config entry
through `filepath.Join`, which cleans the path; for configRoot `"."` the
result is `["envdo"]`, not `["." ++ "/envdo"]` as the claim's plain string
concatenation predicts. -/
theorem c8_counterexample :
    getSearchDirectories "" "." = ["envdo"] ∧
      getSearchDirectories "" "." ≠ ["." ++ "/envdo"] := by
  constructor <;> decide

/-- C8 amended: `getSearchDirectories` returns exactly the working directory
(omitted when empty) followed by `filepath.Join(configRoot, "envdo")` — the
cleaned join, which equals `configRoot + "/envdo"` whenever that
concatenation is already clean, as in the concrete conjunct — omitted when
the config root is empty; the function is pure (a total Lean function over
strings) and touches no filesystem. -/
theorem c8_search_directories :
    (∀ wd cfg : String, getSearchDirectories wd cfg =
      (if wd = "" then [] else [wd]) ++ (if cfg = "" then [] else [joinPath cfg "envdo"])) ∧
    getSearchDirectories "/work" "/home/u/.config" = ["/work", "/home/u/.config" ++ "/envdo"] := by
  constructor
  · intro wd cfg
    unfold getSearchDirectories
    by_cases h1 : wd = "" <;> by_cases h2 : cfg = "" <;> simp [h1, h2]
  · decide

/-! ### Concrete filesystems used by the witnesses -/

/-- Both search directories hold an env file sharing the key `K`. -/
def fsBoth : FileSys := fun p =>
  if p = "/w/.env" then .content "K=1\nA=2"
  else if p = "/c/envdo/.env" then .content "K=9\nB=3"
  else .absent

/-- No file anywhere. -/
def fsAbsent : FileSys := fun _ => .absent

/-- The config directory's env file exists but cannot be read. -/
def fsDenied : FileSys := fun p =>
  if p = "/c/envdo/.env" then .denied "permission denied" else .absent

/-- Only the profile-less `.env` exists, holding `A=1`. -/
def fsA : FileSys := fun p =>
  if p = "/w/.env" then .content "A=1" else .absent

/-- Like `fsA` but with different contents, to witness that `.env` is not
consulted when a profile is set. -/
def fsB : FileSys := fun p =>
  if p = "/w/.env" then .content "B=2" else .absent

theorem c1_witness :
    ∃ m, LoadEnvFiles fsBoth "/w" "/c" "" = .ok m ∧ m "K" = some "1" ∧ m "B" = some "3" := by
  obtain ⟨m, hm, hhi, hlo⟩ :=
    c1_cross_directory_precedence fsBoth "/w" "/c" "" "K=1\nA=2" "K=9\nB=3"
      (by decide) (by decide) (by decide) (by decide)
  exact ⟨m, hm, hhi "K" "1" (by decide), hlo "B" "3" (by decide) (by decide)⟩

theorem c2_witness :
    (LoadEnvFiles fsAbsent "/w" "/c" "" = LoadEnvFiles fsAbsent "" "/c" "") ∧
    (LoadEnvFiles fsAbsent "/w" "/c" "" = LoadEnvFiles fsAbsent "/w" "" "") ∧
    (LoadEnvFiles fsAbsent "/w" "/c" "" = .ok emptyEnv) ∧
    (∃ d ∈ getSearchDirectories "/w" "/c", ∃ msg,
      fsDenied (joinPath d (envFilename "")) = .denied msg ∧
      LoadEnvFiles fsDenied "/w" "/c" "" =
        .error ("failed to load " ++ joinPath d (envFilename "") ++ ": " ++ msg)) :=
  ⟨c2_error_semantics.1 fsAbsent "/w" "/c" "" (by decide) (by decide),
   c2_error_semantics.2.1 fsAbsent "/w" "/c" "" (by decide) (by decide),
   c2_error_semantics.2.2.1 fsAbsent "/w" "/c" "" (by decide),
   c2_error_semantics.2.2.2 fsDenied "/w" "/c" ""
     ⟨joinPath "/c" "envdo", by decide, "permission denied", by decide⟩⟩

theorem c3_witness :
    (mergeOverwriteReversed ["X=1"] "X" = mergeYieldInOrder ["X=1"] "X") ∧
    LoadEnvFiles fsBoth "/w" "/c" "" = .ok (mergeOverwriteReversed ["K=1\nA=2", "K=9\nB=3"]) :=
  ⟨c3_merge_strategy_equivalence.1 ["X=1"] "X",
   c3_merge_strategy_equivalence.2 fsBoth "/w" "/c" "" "K=1\nA=2" "K=9\nB=3"
     (by decide) (by decide) (by decide) (by decide)⟩

theorem c4_witness :
    (stripQuotesChars ['"', 'a', ' ', 'b', '"'] = (['"', 'a', ' ', 'b', '"'].drop 1).dropLast) ∧
    (stripQuotesChars ['a', 'b'] = ['a', 'b']) ∧
    (∃ kr vr, splitFirstEq (trimChars (String.data "A=\"a b\"")) = some (kr, vr) ∧
      "A" = (⟨trimChars kr⟩ : String) ∧ "a b" = (⟨stripQuotesChars (trimChars vr)⟩ : String)) :=
  ⟨c4_quote_stripping.1 ['"', 'a', ' ', 'b', '"'] (by decide) (by decide),
   c4_quote_stripping.2.1 ['a', 'b'] (by decide),
   c4_quote_stripping.2.2 "A=\"a b\"" "A" "a b" (by decide)⟩

theorem c5_witness :
    (parseEnvLine "   " = none) ∧
    (parseEnvLine "NOEQUALS" = none) ∧
    (∃ kr vr, splitFirstEq (trimChars (String.data "K=v")) = some (kr, vr) ∧
      trimChars (String.data "K=v") = kr ++ '=' :: vr ∧ '=' ∉ kr ∧
      parseEnvLine "K=v" =
        some ((⟨trimChars kr⟩ : String), (⟨stripQuotesChars (trimChars vr)⟩ : String))) ∧
    (applyLine emptyEnv "K=v" = setEnv emptyEnv "K" "v") ∧
    (applyLine emptyEnv "# c" = emptyEnv) :=
  ⟨c5_line_skipping.1 "   " (Or.inl (by decide)),
   c5_line_skipping.2.1 "NOEQUALS" (by decide),
   c5_line_skipping.2.2.1 "K=v" (by decide) (by decide) (by decide),
   c5_line_skipping.2.2.2.1 emptyEnv "K=v" "K" "v" (by decide),
   c5_line_skipping.2.2.2.2 emptyEnv "# c" (by decide)⟩

theorem c9_witness :
    (envFilename "staging" = if "staging" = "" then ".env" else ".env." ++ "staging") ∧
    LoadEnvFiles fsA "/w" "" "staging" = LoadEnvFiles fsB "/w" "" "staging" :=
  ⟨c9_profile_filename_selection.1 "staging",
   c9_profile_filename_selection.2 fsA fsB "/w" "" "staging" (by decide)⟩

theorem c10_witness :
    (emptyEnv "Z" = none) ∧
    ((∃ v, fileMap "A=1" "A" = some v) ↔
      ∃ d ∈ getSearchDirectories "/w" "", ∃ t,
        fsA (joinPath d (envFilename "")) = .content t ∧ ∃ v, fileMap t "A" = some v) :=
  ⟨c10_merge_monotonic_keys_union.1 emptyEnv "A=1" "Z" (by decide),
   c10_merge_monotonic_keys_union.2 fsA "/w" "" "" (fileMap "A=1") rfl "A"⟩

end Envdo

